import Mathlib

/-!
Verification of the core parsing logic of the `title_parser` repository
(`src/timecode.rs` and `src/lib.rs`).

Strings are modelled as `List Char`.  The two regular expressions used by the
source are embedded as hand-specialised matchers whose branch order follows the
leftmost-first, greedy backtracking semantics of the `regex` crate; comments at
each definition record how the regex semantics were reduced to the given code.
A Rust panic (an `unwrap()` that could fail) is modelled by wrapping fallible
entry points in `Option`, where `none` is a panic; `u32` overflow in
`to_seconds` is modelled by an explicit `% 2^32`.  The `\d` of the timecode
regex is Unicode-aware in the `regex` crate (`\p{Nd}`), so the hour and
millisecond groups are matched with the Unicode `Nd` table below, and the
source's `parse::<u32>().unwrap()` on those captures is modelled by an
explicit `u32parse` that fails (panics) on non-ASCII digits.
-/

/-- Convert a Lean string literal to the `List Char` representation used
throughout this development. -/
def chars (s : String) : List Char := s.toList

/-- Regex class `[0-9]`. -/
def dig (c : Char) : Bool := decide (48 ≤ c.toNat ∧ c.toNat ≤ 57)

/-- Regex class `[0-5]`. -/
def lowDig (c : Char) : Bool := decide (48 ≤ c.toNat ∧ c.toNat ≤ 53)

/-- Numeric value of a digit character. -/
def digitVal (c : Char) : Nat := c.toNat - 48

/-- Every character is a `[0-9]` digit (regex `\d{...}` body). -/
def allDig (l : List Char) : Bool := l.all dig

/-- Value of a decimal digit string, as computed by Rust `str::parse` on a
string of ASCII digits. -/
def natOfDigits (l : List Char) : Nat := l.foldl (fun a c => a * 10 + digitVal c) 0

/-- Ranges of the Unicode general category `Nd` (decimal digits), Unicode 15.0:
the character set matched by the Unicode-aware `\d` of the `regex` crate. -/
def ndRanges : List (Nat × Nat) :=
  [(48, 57), (1632, 1641), (1776, 1785), (1984, 1993),
   (2406, 2415), (2534, 2543), (2662, 2671), (2790, 2799),
   (2918, 2927), (3046, 3055), (3174, 3183), (3302, 3311),
   (3430, 3439), (3558, 3567), (3664, 3673), (3792, 3801),
   (3872, 3881), (4160, 4169), (4240, 4249), (6112, 6121),
   (6160, 6169), (6470, 6479), (6608, 6617), (6784, 6793),
   (6800, 6809), (6992, 7001), (7088, 7097), (7232, 7241),
   (7248, 7257), (42528, 42537), (43216, 43225), (43264, 43273),
   (43472, 43481), (43504, 43513), (43600, 43609), (44016, 44025),
   (65296, 65305), (66720, 66729), (68912, 68921), (69734, 69743),
   (69872, 69881), (69942, 69951), (70096, 70105), (70384, 70393),
   (70736, 70745), (70864, 70873), (71248, 71257), (71360, 71369),
   (71472, 71481), (71904, 71913), (72016, 72025), (72784, 72793),
   (73040, 73049), (73120, 73129), (73552, 73561), (92768, 92777),
   (92864, 92873), (93008, 93017), (120782, 120831), (123200, 123209),
   (123632, 123641), (124144, 124153), (125264, 125273), (130032, 130041)]

/-- Regex `\d` of the `regex` crate: a Unicode decimal digit (`\p{Nd}`). -/
def nd (c : Char) : Bool := ndRanges.any (fun r => decide (r.1 ≤ c.toNat ∧ c.toNat ≤ r.2))

/-- Number of `u32` values. -/
def U32 : Nat := 4294967296

/-- Rust `str::parse::<u32>`: succeeds exactly on nonempty all-ASCII-digit
strings whose value fits in a `u32` (a sign cannot occur in the captures fed
to it, which consist of `\p{Nd}` digits only). -/
def u32parse (l : List Char) : Option Nat :=
  if l ≠ [] ∧ allDig l = true ∧ natOfDigits l < U32 then some (natOfDigits l) else none

/-- The `TimeCode` struct of `src/timecode.rs` (field `string` keeps the source
text; `hh`, `mm`, `ss`, `ttt` are the parsed `u32` fields). -/
structure TimeCode where
  string : List Char
  hh : Nat
  mm : Nat
  ss : Nat
  ttt : Nat
deriving DecidableEq

/-- Matcher for the anchored regex fragment `([0-5][0-9]):([0-5][0-9])[\.,](\d{3})$`
(the part of the timecode regex after the optional hour group).  It must consume
the whole remaining input, so only lists of exactly nine characters can match;
on success it returns the numeric values of groups 3 and 4 (whose classes
`[0-5][0-9]` are explicit ASCII ranges, so `parse::<u32>` on them always
succeeds and they are modelled as values) and the raw capture of group 5 of
the regex `^((\d{2,4}):)?([0-5][0-9]):([0-5][0-9])[\.,](\d{3})$` of
`to_timecode`.  The `\d{3}` group is Unicode-aware, so its three characters
are any `Nd` digits and the capture is kept as a string for the later
`parse::<u32>().unwrap()`. -/
def matchMMSSmmm : List Char → Option (Nat × Nat × List Char)
  | [a, b, c, d, e, p, f, g, h] =>
    if lowDig a && dig b && (c == ':') && lowDig d && dig e
        && (p == '.' || p == ',') && nd f && nd g && nd h then
      some (10 * digitVal a + digitVal b,
            10 * digitVal d + digitVal e,
            [f, g, h])
    else none
  | _ => none

/-- One backtracking attempt of the greedy optional hour group `((\d{2,4}):)?`
of the timecode regex, with the hour field holding exactly `d` digits: `d`
Unicode `Nd` digit characters, a `':'`, then the `MM:SS[.,]mmm $` remainder.
The raw hour capture is returned for the later `parse::<u32>().unwrap()`. -/
def tryHour (d : Nat) (cs : List Char) : Option (List Char × Nat × Nat × List Char) :=
  if ((cs.take d).length == d && (cs.take d).all nd) then
    match cs.drop d with
    | [] => none
    | c :: rest =>
      if c == ':' then
        match matchMMSSmmm rest with
        | some (m, s, t) => some (cs.take d, m, s, t)
        | none => none
      else none
  else none

/-- Full matcher for the timecode regex `^((\d{2,4}):)?([0-5][0-9]):([0-5][0-9])[\.,](\d{3})$`
of `to_timecode` in `src/timecode.rs`.  The optional group is greedy, and
`\d{2,4}` is greedy, so a backtracking engine tries a 4-digit hour first, then
3, then 2, then the absent-hour alternative; after the hour group the rest of
the regex is deterministic.  On success the quadruple is
(hour capture when the group is present, minutes value, seconds value,
millisecond capture). -/
def matchTimecode (cs : List Char) :
    Option (Option (List Char) × Nat × Nat × List Char) :=
  match tryHour 4 cs with
  | some (hs, m, s, t) => some (some hs, m, s, t)
  | none =>
    match tryHour 3 cs with
    | some (hs, m, s, t) => some (some hs, m, s, t)
    | none =>
      match tryHour 2 cs with
      | some (hs, m, s, t) => some (some hs, m, s, t)
      | none =>
        match matchMMSSmmm cs with
        | some (m, s, t) => some (none, m, s, t)
        | none => none

/-- The error string of `to_timecode`. -/
def invalidTC : List Char := chars ("invalid timecode")

/-- Embedding of `<str as TimeCodeTrait>::to_timecode` of `src/timecode.rs`.  `none` models a
panic: the source calls `.parse().unwrap()` on the captured hour and
millisecond substrings, which the Unicode-aware regex can fill with non-ASCII
`Nd` digits that `str::parse::<u32>` rejects (the minute and second captures
are ASCII `[0-5][0-9]` and never fail).  Hours default to 0 when the hour
group is absent.  A failed regex match returns the `Err("invalid timecode")`
value. -/
def to_timecode (s : List Char) : Option (Except (List Char) TimeCode) :=
  match matchTimecode s with
  | none => some (Except.error invalidTC)
  | some (hopt, m, sec, tstr) =>
    match (match hopt with | some hs => u32parse hs | none => some 0) with
    | none => none
    | some hh =>
      match u32parse tstr with
      | none => none
      | some ttt => some (Except.ok ⟨s, hh, m, sec, ttt⟩)

/-- Embedding of `TimeCode::to_seconds` of `src/timecode.rs`: `(hh * 60 * 60) + (mm * 60) + ss`
in `u32` arithmetic (the reduction mod `2^32` models `u32` wrapping; for every
`TimeCode` produced by `to_timecode` the sum is far below `2^32`). -/
def TimeCode.to_seconds (tc : TimeCode) : Nat :=
  (tc.hh * 60 * 60 + tc.mm * 60 + tc.ss) % U32

/-- Regex class `[0-9:\.,]` of the cue regex in `src/lib.rs`. -/
def classChar (c : Char) : Bool := dig c || c == ':' || c == '.' || c == ','

/-- Length of the maximal prefix satisfying `p` (a greedy character-class run). -/
def runLen (p : Char → Bool) : List Char → Nat
  | [] => 0
  | c :: rest => if p c then runLen p rest + 1 else 0

/-- Index of the first `'\n'`, if any. -/
def firstNL : List Char → Option Nat
  | [] => none
  | c :: rest =>
    if c == '\n' then some 0
    else
      match firstNL rest with
      | some n => some (n + 1)
      | none => none

/-- Matcher for the regex fragment `([0-9:\.,]{9,}) --> ([0-9:\.,]{9,})( .*)?`
of the cue regex, required to consume the whole input `line` (in the full regex
the next token is the `\n` that ends the line; neither the class, the literal
` --> `, nor `.` can match `\n`, so the fragment must stretch exactly to the
end of the line).  On success it returns the captures of groups 3 and 4.

The backtracking search collapses to the greedy run: group 3 is greedy and
` --> ` starts with a space, which is outside the class, so the literal can
only follow the maximal class run (any shorter prefix is followed by a class
character); likewise for group 4, whose maximal run can only be followed by
nothing (group 5 absent, end of line) or by a space (group 5 ` .*` present,
consuming the rest of the line). -/
def matchTimingLine (line : List Char) : Option (List Char × List Char) :=
  let n3 := runLen classChar line
  if 9 ≤ n3 then
    let r1 := line.drop n3
    if r1.take 5 = [' ', '-', '-', '>', ' '] then
      let r2 := r1.drop 5
      let n4 := runLen classChar r2
      if 9 ≤ n4 then
        let r3 := r2.drop n4
        if r3 = [] ∨ r3.head? = some ' ' then some (line.take n3, r2.take n4)
        else none
      else none
    else none
  else none

/-- Match the timing line plus trailing text group starting at the current
position: the timing fragment must fill the current line (up to the next
`'\n'`), and group 6 `((\n.*)+)` greedily captures everything from that `'\n'`
to the end of the input (each `\n.*` iteration takes a newline and the whole
following line).  Returns the captures of groups 3, 4 and 6. -/
def matchTiming (t : List Char) : Option (List Char × List Char × List Char) :=
  match firstNL t with
  | none => none
  | some j =>
    match matchTimingLine (t.take j) with
    | some (g3, g4) => some (g3, g4, t.drop j)
    | none => none

/-- The preferred branch of the optional identifier group `(.+\n)?` of the cue
regex: `.` cannot match `'\n'`, so a present group consumes exactly the
(nonempty) text up to and including the first `'\n'`, and the timing fragment
starts right after it. -/
def identThenTiming (cs : List Char) : Option (List Char × List Char × List Char) :=
  match firstNL cs with
  | none => none
  | some k => if 1 ≤ k then matchTiming (cs.drop (k + 1)) else none

/-- Match of the whole cue regex `(.+\n)?(([0-9:\.,]{9,}) --> ([0-9:\.,]{9,})( .*)?)((\n.*)+)`
at the current position.  The greedy optional group is tried present first
(leftmost-first semantics of the `regex` crate), then absent. -/
def matchAt (cs : List Char) : Option (List Char × List Char × List Char) :=
  match identThenTiming cs with
  | some r => some r
  | none => matchTiming cs

/-- Embedding of `Regex::captures` of the (unanchored) cue regex: the match with the
leftmost starting position wins, so every start position is tried in order.
Returns the captured groups 3, 4 and 6; group 6 is always present in a
successful match (it is a `+` repetition), which is why the source's
`caps.get(6).unwrap()` cannot panic. -/
def findCue : List Char → Option (List Char × List Char × List Char)
  | [] => none
  | c :: rest =>
    match matchAt (c :: rest) with
    | some r => some r
    | none => findCue rest

/-- Unicode `White_Space` property, the trimming predicate of Rust
`str::trim` (`char::is_whitespace`). -/
def isWS (c : Char) : Bool :=
  decide (c.toNat = 9 ∨ c.toNat = 10 ∨ c.toNat = 11 ∨ c.toNat = 12 ∨ c.toNat = 13
    ∨ c.toNat = 32 ∨ c.toNat = 133 ∨ c.toNat = 160 ∨ c.toNat = 5760
    ∨ (8192 ≤ c.toNat ∧ c.toNat ≤ 8202) ∨ c.toNat = 8232 ∨ c.toNat = 8233
    ∨ c.toNat = 8239 ∨ c.toNat = 8287 ∨ c.toNat = 12288)

/-- Rust `str::trim`: remove leading and trailing whitespace. -/
def trimWS (cs : List Char) : List Char :=
  ((cs.dropWhile isWS).reverse.dropWhile isWS).reverse

/-- Rust `str::split('\n')`: the list of `'\n'`-separated segments (the empty
string yields one empty segment). -/
def splitNL : List Char → List (List Char)
  | [] => [[]]
  | c :: rest =>
    if c == '\n' then [] :: splitNL rest
    else
      match splitNL rest with
      | [] => [[c]]
      | l :: ls => (c :: l) :: ls

/-- Rust `Vec::join("\n")`. -/
def joinNL (ls : List (List Char)) : List Char := List.intercalate ['\n'] ls

/-- Regex class `[0-9a-zA-Z\.,:_\-]`, the token-character set of the two tag
regexes `<[0-9a-zA-Z\.,:_\-]+>` and `</[0-9a-zA-Z\.,:_\-]+>` in `REGEX_TO_PRUNE`. -/
def tagChar (c : Char) : Bool :=
  dig c || decide (97 ≤ c.toNat ∧ c.toNat ≤ 122) || decide (65 ≤ c.toNat ∧ c.toNat ≤ 90)
    || c == '.' || c == ',' || c == ':' || c == '_' || c == '-'

/-- Match the part of a tag after the `'<'` (and after the `'/'` for the
closing-tag regex): a nonempty greedy `tagChar` run followed by `'>'`.  The
run is greedy, and `'>'` is outside the class, so only the maximal run can be
followed by `'>'`.  Returns the remaining input after the tag. -/
def tagBody (r : List Char) : Option (List Char) :=
  let n := runLen tagChar r
  if 1 ≤ n ∧ (r.drop n).head? = some '>' then some (r.drop (n + 1)) else none

/-- Match one tag at the current position, just after a `'<'`; `slash` selects
the closing-tag regex `</...>`. -/
def tagAfterLT (slash : Bool) (rest : List Char) : Option (List Char) :=
  if slash then
    match rest with
    | [] => none
    | c :: r2 => if c == '/' then tagBody r2 else none
  else tagBody rest

/-- Embedding of `Regex::replace_all` of one tag regex with the empty string, scanning left
to right for non-overlapping matches.  `fuel` only bounds the recursion; every
step consumes at least one character of `cs`, so `fuel = cs.length` (as passed
by `removeTags`) never runs out. -/
def removeTagsAux (slash : Bool) : Nat → List Char → List Char
  | 0, cs => cs
  | _ + 1, [] => []
  | fuel + 1, c :: rest =>
    if c == '<' then
      match tagAfterLT slash rest with
      | some r2 => removeTagsAux slash fuel r2
      | none => c :: removeTagsAux slash fuel rest
    else c :: removeTagsAux slash fuel rest

/-- Embedding of `Regex::replace_all` of an opening-tag (`slash = false`) or closing-tag
(`slash = true`) regex with the empty string. -/
def removeTags (slash : Bool) (cs : List Char) : List Char :=
  removeTagsAux slash cs.length cs

/-- Does `pat` occur at the start of `cs`? -/
def leadsWith : List Char → List Char → Bool
  | [], _ => true
  | _ :: _, [] => false
  | p :: ps, c :: rest => p == c && leadsWith ps rest

/-- Embedding of `Regex::replace_all` of the anchored regex `^\- ` with the empty string:
without the multiline flag `^` only matches at the very start of the haystack,
so at most one leading `"- "` is removed. -/
def stripDash (cs : List Char) : List Char :=
  match cs with
  | '-' :: ' ' :: rest => rest
  | _ => cs

/-- Rust `str::replace(pat, "")`: delete every non-overlapping occurrence of
`pat`, scanning left to right.  `fuel` only bounds the recursion; every step
consumes at least one character, so `fuel = cs.length` (as passed by
`replaceStr`) never runs out. -/
def replaceAux (pat : List Char) : Nat → List Char → List Char
  | 0, cs => cs
  | _ + 1, [] => []
  | fuel + 1, c :: rest =>
    if leadsWith pat (c :: rest) ∧ 1 ≤ pat.length then
      replaceAux pat fuel ((c :: rest).drop pat.length)
    else c :: replaceAux pat fuel rest

/-- Rust `str::replace(pat, "")` on `cs`. -/
def replaceStr (pat : List Char) (cs : List Char) : List Char :=
  replaceAux pat cs.length cs

/-- The `ES_TO_PRUNE` array of `src/lib.rs`, in source order. -/
def esToPrune : List (List Char) :=
  [chars ("&amp;"), chars ("&lt;"), chars ("&gt;"),
   chars ("&lrm;"), chars ("&rlm;"), chars ("&nbsp;")]

/-- Embedding of `sanitize_text` of `src/lib.rs`: apply the three `REGEX_TO_PRUNE` patterns
in order (opening tags, closing tags, one leading `"- "`), then delete the six
`ES_TO_PRUNE` entity strings in order. -/
def sanitize_text (input : List Char) : List Char :=
  esToPrune.foldl (fun t e => replaceStr e t)
    (stripDash (removeTags true (removeTags false input)))

/-- The `Cue` struct of `src/lib.rs` (`end_` models the Rust field `end`). -/
structure Cue where
  start : TimeCode
  end_ : TimeCode
  text : List Char
deriving DecidableEq

/-- Embedding of `generate_timecodes` of `src/lib.rs`: parse both captured timestamp
substrings, converting a parse error into `None` (`.ok()?`).  The outer
`Option` models a panic inside `to_timecode`. -/
def generate_timecodes (g3 g4 : List Char) : Option (Option (TimeCode × TimeCode)) :=
  match to_timecode g3 with
  | none => none
  | some (Except.error _) => some none
  | some (Except.ok a) =>
    match to_timecode g4 with
    | none => none
    | some (Except.error _) => some none
    | some (Except.ok b) => some (some (a, b))

/-- The error string of `to_cue`. -/
def notValidCue : List Char := chars ("not a valid cue")

/-- Embedding of `<str as CueTrait>::to_cue` of `src/lib.rs`.  The regex captures are
computed by `findCue`; group 6 is trimmed, split on `'\n'`, each line
sanitized, and the lines rejoined with `'\n'`.  `none` models a panic
(propagated from `to_timecode`; the source's own `caps.get(6).unwrap()` cannot
panic since group 6 is present in every match). -/
def to_cue (s : List Char) : Option (Except (List Char) Cue) :=
  match findCue s with
  | none => some (Except.error notValidCue)
  | some (g3, g4, g6) =>
    match generate_timecodes g3 g4 with
    | none => none
    | some none => some (Except.error notValidCue)
    | some (some (a, b)) =>
      some (Except.ok ⟨a, b, joinNL ((splitNL (trimWS g6)).map sanitize_text)⟩)

/-- Modelled from the spec (§4.1 grammar), for comparison with the parser: a
nine-character `MM:SS[.,]mmm` body with two-digit minutes and seconds in
`[00,59]` and three millisecond digits. -/
def specMSpart (cs : List Char) : Bool :=
  match cs with
  | [a, b, c, d, e, p, f, g, h] =>
    lowDig a && dig b && (c == ':') && lowDig d && dig e
      && (p == '.' || p == ',') && dig f && dig g && dig h
  | _ => false

/-- Modelled from the spec (§4.1 grammar), for comparison with the parser: a
valid timestamp is an `MM:SS[.,]mmm` body, optionally prefixed by a 2–4 digit
hour field and a `':'`. -/
def specValidTimecode (cs : List Char) : Bool :=
  specMSpart cs ||
    (match cs.drop (cs.length - 10) with
     | ':' :: ms =>
       decide (2 ≤ cs.length - 10) && decide (cs.length - 10 ≤ 4)
         && allDig (cs.take (cs.length - 10)) && specMSpart ms
     | _ => false)

/-- Modelled from the spec (§4.1 grammar) with `digit` in the millisecond
field read as a Unicode `Nd` digit, as the source regex's `\d` does: a
nine-character `MM:SS[.,]mmm` body with two-digit ASCII minutes and seconds in
`[00,59]` and three Unicode-digit millisecond characters. -/
def specMSpartU (cs : List Char) : Bool :=
  match cs with
  | [a, b, c, d, e, p, f, g, h] =>
    lowDig a && dig b && (c == ':') && lowDig d && dig e
      && (p == '.' || p == ',') && nd f && nd g && nd h
  | _ => false

/-- Modelled from the spec (§4.1 grammar) with `digit` in the hour and
millisecond fields read as a Unicode `Nd` digit, as the source regex's `\d`
does: a valid timestamp is an `MM:SS[.,]mmm` body, optionally prefixed by a
2–4 Unicode-digit hour field and a `':'`. -/
def specValidTimecodeU (cs : List Char) : Bool :=
  specMSpartU cs ||
    (match cs.drop (cs.length - 10) with
     | ':' :: ms =>
       decide (2 ≤ cs.length - 10) && decide (cs.length - 10 ≤ 4)
         && (cs.take (cs.length - 10)).all nd && specMSpartU ms
     | _ => false)

/-- Modelled from the spec (§4.3 rules 1 and 2): remove the tags of one kind
in a single left-to-right pass — at a `'<'` (and `'/'` for closing tags), a
nonempty token over the allowed charset followed by `'>'` is dropped and the
scan continues after it; otherwise the character is kept.  Written with
`List.span` (independently of the matcher used for the source embedding);
`fuel` only bounds the recursion, every step consuming at least one
character. -/
def specTagHere (slash : Bool) (r : List Char) : Option (List Char) :=
  match (if slash then (match r with | '/' :: r2 => some r2 | _ => none) else some r) with
  | none => none
  | some r2 =>
    match r2.span tagChar with
    | (tok, rest) =>
      match rest with
      | '>' :: after => if tok = [] then none else some after
      | _ => none

/-- Modelled from the spec (§4.3 rules 1 and 2, continued): the left-to-right
removal pass over one kind of tag. -/
def specStripTags (slash : Bool) : Nat → List Char → List Char
  | 0, l => l
  | _ + 1, [] => []
  | fuel + 1, c :: r =>
    if c = '<' then
      match specTagHere slash r with
      | some after => specStripTags slash fuel after
      | none => c :: specStripTags slash fuel r
    else c :: specStripTags slash fuel r

/-- Modelled from the spec (§4.3 rule 3): strip a single leading `"- "`
dialogue-dash marker, at most once. -/
def specStripDash (l : List Char) : List Char :=
  if l.take 2 = chars ("- ") then l.drop 2 else l

/-- Modelled from the spec (§4.3 rule 4, amended reading): delete every
occurrence of the single pattern `pat`, scanning left to right over
non-overlapping occurrences.  Written with a prefix comparison (independently
of the source embedding's matcher); `fuel` only bounds the recursion. -/
def specReplace (pat : List Char) : Nat → List Char → List Char
  | 0, l => l
  | _ + 1, [] => []
  | fuel + 1, c :: r =>
    if pat ≠ [] ∧ (c :: r).take pat.length = pat then
      specReplace pat fuel ((c :: r).drop pat.length)
    else c :: specReplace pat fuel r

/-- Modelled from the spec (claim C6's rule 4 as frozen): a single
left-to-right pass that deletes, at each position, whichever of the six
entities starts there (one simultaneous pass over all six, not one pass per
entity). -/
def specEntityOnePass : Nat → List Char → List Char
  | 0, l => l
  | _ + 1, [] => []
  | fuel + 1, c :: r =>
    match esToPrune.filter (fun e => decide ((c :: r).take e.length = e)) with
    | e :: _ => specEntityOnePass fuel ((c :: r).drop e.length)
    | [] => c :: specEntityOnePass fuel r

/-- Modelled from the spec (§4.3, amended reading of rule 4): the full
sanitizer pipeline — opening tags, closing tags, one leading dash, then six
sequential whole-line entity deletions in the order `&amp;`, `&lt;`, `&gt;`,
`&lrm;`, `&rlm;`, `&nbsp;`. -/
def specSanitizeSeq (l : List Char) : List Char :=
  let t1 := specStripTags false l.length l
  let t2 := specStripTags true t1.length t1
  let t3 := specStripDash t2
  let t4 := specReplace (chars ("&amp;")) t3.length t3
  let t5 := specReplace (chars ("&lt;")) t4.length t4
  let t6 := specReplace (chars ("&gt;")) t5.length t5
  let t7 := specReplace (chars ("&lrm;")) t6.length t6
  let t8 := specReplace (chars ("&rlm;")) t7.length t7
  specReplace (chars ("&nbsp;")) t8.length t8

/-- Modelled from the spec (claim C6 as frozen): the sanitizer pipeline with
rule 4 read as one simultaneous pass deleting every occurrence of the six
entities. -/
def specSanitizeClaim (l : List Char) : List Char :=
  let t1 := specStripTags false l.length l
  let t2 := specStripTags true t1.length t1
  let t3 := specStripDash t2
  specEntityOnePass t3.length t3

theorem dig_iff {c : Char} : dig c = true ↔ 48 ≤ c.toNat ∧ c.toNat ≤ 57 := by
  simp [dig]

theorem lowDig_iff {c : Char} : lowDig c = true ↔ 48 ≤ c.toNat ∧ c.toNat ≤ 53 := by
  simp [lowDig]

theorem lowDig_dig {c : Char} (h : lowDig c = true) : dig c = true := by
  rw [lowDig_iff] at h; rw [dig_iff]; omega

theorem digitVal_le {c : Char} (h : dig c = true) : digitVal c ≤ 9 := by
  rw [dig_iff] at h; unfold digitVal; omega

theorem digitVal_le_five {c : Char} (h : lowDig c = true) : digitVal c ≤ 5 := by
  rw [lowDig_iff] at h; unfold digitVal; omega

theorem dig_nd {c : Char} (h : dig c = true) : nd c = true := by
  rw [dig_iff] at h
  rw [nd, List.any_eq_true]
  refine ⟨(48, 57), by decide, ?_⟩
  simpa using h

theorem nd_colon : nd ':' = false := by decide

theorem classChar_dig {c : Char} (h1 : classChar c = true) (h2 : nd c = true) :
    dig c = true := by
  rw [classChar] at h1
  simp only [Bool.or_eq_true, beq_iff_eq] at h1
  rcases h1 with ((h | h) | h) | h
  · exact h
  · subst h; exact absurd h2 (by decide)
  · subst h; exact absurd h2 (by decide)
  · subst h; exact absurd h2 (by decide)

theorem foldl_digits_lt (l : List Char) : ∀ a : Nat, allDig l = true →
    l.foldl (fun a c => a * 10 + digitVal c) a < (a + 1) * 10 ^ l.length := by
  induction l with
  | nil => intro a _; simp
  | cons c rest ih =>
    intro a h
    rw [allDig] at h
    simp only [List.all_cons, Bool.and_eq_true] at h
    have hc := digitVal_le h.1
    have hrec := ih (a * 10 + digitVal c) h.2
    calc (c :: rest).foldl (fun a c => a * 10 + digitVal c) a
        = rest.foldl (fun a c => a * 10 + digitVal c) (a * 10 + digitVal c) := by
          simp [List.foldl_cons]
      _ < (a * 10 + digitVal c + 1) * 10 ^ rest.length := hrec
      _ ≤ (a + 1) * 10 ^ (c :: rest).length := by
          rw [List.length_cons, pow_succ]
          have h1 : a * 10 + digitVal c + 1 ≤ (a + 1) * 10 := by omega
          calc (a * 10 + digitVal c + 1) * 10 ^ rest.length
              ≤ ((a + 1) * 10) * 10 ^ rest.length := Nat.mul_le_mul_right _ h1
            _ = (a + 1) * (10 ^ rest.length * 10) := by ring


theorem natOfDigits_lt {l : List Char} (h : allDig l = true) :
    natOfDigits l < 10 ^ l.length := by
  have := foldl_digits_lt l 0 h
  simpa [natOfDigits] using this

theorem natOfDigits_three {x y z : Char} :
    natOfDigits [x, y, z] = 100 * digitVal x + 10 * digitVal y + digitVal z := by
  simp only [natOfDigits, List.foldl_cons, List.foldl_nil]
  ring

theorem u32parse_digits {l : List Char} (hd : allDig l = true) (hne : l ≠ [])
    (hlt : natOfDigits l < U32) : u32parse l = some (natOfDigits l) := by
  unfold u32parse
  rw [if_pos ⟨hne, hd, hlt⟩]

theorem matchMMSSmmm_eval {a b d e p f g h : Char}
    (ha : lowDig a = true) (hb : dig b = true) (hd : lowDig d = true) (he : dig e = true)
    (hp : (p == '.' || p == ',') = true)
    (hf : dig f = true) (hg : dig g = true) (hh : dig h = true) :
    matchMMSSmmm [a, b, ':', d, e, p, f, g, h] =
      some (10 * digitVal a + digitVal b, 10 * digitVal d + digitVal e, [f, g, h]) := by
  simp [matchMMSSmmm, ha, hb, hd, he, hp, dig_nd hf, dig_nd hg, dig_nd hh]

theorem matchMMSSmmm_inv {cs : List Char} {M S : Nat} {Ts : List Char}
    (h : matchMMSSmmm cs = some (M, S, Ts)) :
    cs.length = 9 ∧ specMSpartU cs = true ∧ M ≤ 59 ∧ S ≤ 59 ∧
      Ts.length = 3 ∧ Ts.all nd = true ∧ (∀ x ∈ Ts, x ∈ cs) := by
  unfold matchMMSSmmm at h
  split at h
  next a b c d e p f g hc =>
    split at h
    next hcond =>
      cases h
      simp only [Bool.and_eq_true] at hcond
      obtain ⟨⟨⟨⟨⟨⟨⟨⟨ha, hb⟩, hcc⟩, hd⟩, he⟩, hp⟩, hf⟩, hg⟩, hh⟩ := hcond
      refine ⟨rfl, ?_, ?_, ?_, rfl, ?_, ?_⟩
      · simp [specMSpartU, ha, hb, hcc, hd, he, hp, hf, hg, hh]
      · have h1 := digitVal_le_five ha; have h2 := digitVal_le hb; omega
      · have h1 := digitVal_le_five hd; have h2 := digitVal_le he; omega
      · simp [hf, hg, hh]
      · intro x hx
        simp only [List.mem_cons, List.not_mem_nil, or_false] at hx
        rcases hx with rfl | rfl | rfl <;> simp
    next => exact absurd h (by simp)
  next => exact absurd h (by simp)

theorem tryHour_inv {d : Nat} {cs Hs : List Char} {M S : Nat} {Ts : List Char}
    (h : tryHour d cs = some (Hs, M, S, Ts)) :
    ∃ hd rest, cs = hd ++ ':' :: rest ∧ hd.length = d ∧ hd.all nd = true ∧
      matchMMSSmmm rest = some (M, S, Ts) ∧ Hs = hd := by
  unfold tryHour at h
  split at h
  next hguard =>
    simp only [Bool.and_eq_true, beq_iff_eq] at hguard
    split at h
    next => exact absurd h (by simp)
    next c rest hdrop =>
      split at h
      next hc =>
        rw [beq_iff_eq] at hc
        subst hc
        split at h
        next m s t hms =>
          cases h
          exact ⟨cs.take d, rest, by rw [← hdrop]; exact (List.take_append_drop d cs).symm,
            hguard.1, hguard.2, hms, rfl⟩
        next => exact absurd h (by simp)
      next => exact absurd h (by simp)
  next => exact absurd h (by simp)

theorem tryHour_specU {d : Nat} {cs Hs : List Char} {M S : Nat} {Ts : List Char}
    (hd2 : 2 ≤ d) (hd4 : d ≤ 4) (h : tryHour d cs = some (Hs, M, S, Ts)) :
    specValidTimecodeU cs = true ∧ M ≤ 59 ∧ S ≤ 59 ∧
      Ts.length = 3 ∧ Ts.all nd = true ∧ (∀ x ∈ Ts, x ∈ cs) ∧
      Hs.all nd = true ∧ 2 ≤ Hs.length ∧ Hs.length ≤ 4 ∧ (∀ x ∈ Hs, x ∈ cs) := by
  obtain ⟨hd0, rest, rfl, hlen, hall, hms, rfl⟩ := tryHour_inv h
  obtain ⟨hrl, hsp, hM, hS, hT3, hTnd, hTmem⟩ := matchMMSSmmm_inv hms
  have hlencs : (Hs ++ ':' :: rest).length = d + 10 := by
    simp [hlen, hrl]
  refine ⟨?_, hM, hS, hT3, hTnd, ?_, hall, by omega, by omega, ?_⟩
  · unfold specValidTimecodeU
    rw [hlencs]
    have hd10 : d + 10 - 10 = d := by omega
    rw [hd10, ← hlen, List.drop_left, List.take_left]
    simp [hall, hsp, hlen, hd2, hd4]
  · intro x hx
    exact List.mem_append_right Hs (List.mem_cons_of_mem ':' (hTmem x hx))
  · intro x hx
    exact List.mem_append_left _ hx

theorem matchTimecode_inv {cs : List Char} {hopt : Option (List Char)} {M S : Nat}
    {Ts : List Char} (h : matchTimecode cs = some (hopt, M, S, Ts)) :
    specValidTimecodeU cs = true ∧ M ≤ 59 ∧ S ≤ 59 ∧
      Ts.length = 3 ∧ Ts.all nd = true ∧ (∀ x ∈ Ts, x ∈ cs) ∧
      (∀ hs, hopt = some hs → hs.all nd = true ∧ 2 ≤ hs.length ∧ hs.length ≤ 4 ∧
        (∀ x ∈ hs, x ∈ cs)) := by
  unfold matchTimecode at h
  split at h
  next hs4 m s t h4 =>
    cases h
    obtain ⟨hv, hM, hS, hT3, hTnd, hTmem, hnd, hl2, hl4, hmem⟩ :=
      tryHour_specU (by omega) (by omega) h4
    refine ⟨hv, hM, hS, hT3, hTnd, hTmem, ?_⟩
    intro hs heq
    cases heq
    exact ⟨hnd, hl2, hl4, hmem⟩
  next =>
    split at h
    next hs3 m s t h3 =>
      cases h
      obtain ⟨hv, hM, hS, hT3, hTnd, hTmem, hnd, hl2, hl4, hmem⟩ :=
        tryHour_specU (by omega) (by omega) h3
      refine ⟨hv, hM, hS, hT3, hTnd, hTmem, ?_⟩
      intro hs heq
      cases heq
      exact ⟨hnd, hl2, hl4, hmem⟩
    next =>
      split at h
      next hs2 m s t h2 =>
        cases h
        obtain ⟨hv, hM, hS, hT3, hTnd, hTmem, hnd, hl2, hl4, hmem⟩ :=
          tryHour_specU (by omega) (by omega) h2
        refine ⟨hv, hM, hS, hT3, hTnd, hTmem, ?_⟩
        intro hs heq
        cases heq
        exact ⟨hnd, hl2, hl4, hmem⟩
      next =>
        split at h
        next m s t hms =>
          cases h
          obtain ⟨_, hsp, hM, hS, hT3, hTnd, hTmem⟩ := matchMMSSmmm_inv hms
          exact ⟨by unfold specValidTimecodeU; simp [hsp], hM, hS, hT3, hTnd, hTmem,
            fun hs heq => by cases heq⟩
        next => exact absurd h (by simp)

theorem to_timecode_total_classChar {l : List Char} (hc : l.all classChar = true) :
    (to_timecode l).isSome = true := by
  unfold to_timecode
  split
  · rfl
  next hopt M S Ts heq =>
    obtain ⟨_, _, _, hT3, hTnd, hTmem, hhour⟩ := matchTimecode_inv heq
    rw [List.all_eq_true] at hc
    have digits_of : ∀ m : List Char, m.all nd = true → (∀ x ∈ m, x ∈ l) →
        allDig m = true := by
      intro m hmnd hmem
      rw [allDig, List.all_eq_true]
      intro x hx
      rw [List.all_eq_true] at hmnd
      exact classChar_dig (hc x (hmem x hx)) (hmnd x hx)
    have hTdig : allDig Ts = true := digits_of Ts hTnd hTmem
    have hTne : Ts ≠ [] := by intro he; rw [he] at hT3; simp at hT3
    have hTlt : natOfDigits Ts < U32 := by
      have hb := natOfDigits_lt hTdig
      rw [hT3] at hb
      calc natOfDigits Ts < 10 ^ 3 := hb
        _ < U32 := by norm_num [U32]
    rcases hopt with _ | hs
    · show (Option.isSome (match u32parse Ts with
        | none => (none : Option (Except (List Char) TimeCode))
        | some ttt => some (Except.ok (TimeCode.mk l 0 M S ttt)))) = true
      rw [u32parse_digits hTdig hTne hTlt]
      rfl
    · obtain ⟨hsnd, hsl2, hsl4, hsmem⟩ := hhour hs rfl
      have hsdig : allDig hs = true := digits_of hs hsnd hsmem
      have hsne : hs ≠ [] := by intro he; rw [he] at hsl2; simp at hsl2
      have hslt : natOfDigits hs < U32 := by
        have hb := natOfDigits_lt hsdig
        calc natOfDigits hs < 10 ^ hs.length := hb
          _ ≤ 10 ^ 4 := Nat.pow_le_pow_right (by omega) hsl4
          _ < U32 := by norm_num [U32]
      show (Option.isSome (match u32parse hs with
        | none => (none : Option (Except (List Char) TimeCode))
        | some hh =>
          match u32parse Ts with
          | none => none
          | some ttt => some (Except.ok (TimeCode.mk l hh M S ttt)))) = true
      rw [u32parse_digits hsdig hsne hslt, u32parse_digits hTdig hTne hTlt]
      rfl

theorem take_runLen_all (p : Char → Bool) : ∀ l : List Char,
    (l.take (runLen p l)).all p = true := by
  intro l
  induction l with
  | nil => rfl
  | cons c r ih =>
    by_cases hp : p c
    · simp [runLen, hp, List.take_succ_cons, ih]
    · simp [runLen, hp]

theorem matchTimingLine_classChar {line g3 g4 : List Char}
    (h : matchTimingLine line = some (g3, g4)) :
    g3.all classChar = true ∧ g4.all classChar = true := by
  simp only [matchTimingLine] at h
  split at h
  next =>
    split at h
    next =>
      split at h
      next =>
        split at h
        next =>
          cases h
          exact ⟨take_runLen_all _ _, take_runLen_all _ _⟩
        next => exact absurd h (by simp)
      next => exact absurd h (by simp)
    next => exact absurd h (by simp)
  next => exact absurd h (by simp)

theorem matchTiming_classChar {t g3 g4 g6 : List Char}
    (h : matchTiming t = some (g3, g4, g6)) :
    g3.all classChar = true ∧ g4.all classChar = true := by
  unfold matchTiming at h
  split at h
  · exact absurd h (by simp)
  next j heq =>
    split at h
    next a b heq2 =>
      cases h
      exact matchTimingLine_classChar heq2
    next => exact absurd h (by simp)

theorem matchAt_classChar {cs g3 g4 g6 : List Char}
    (h : matchAt cs = some (g3, g4, g6)) :
    g3.all classChar = true ∧ g4.all classChar = true := by
  unfold matchAt at h
  split at h
  next r heq =>
    cases h
    unfold identThenTiming at heq
    split at heq
    · exact absurd heq (by simp)
    next k hfnl =>
      split at heq
      · exact matchTiming_classChar heq
      · exact absurd heq (by simp)
  next => exact matchTiming_classChar h

theorem findCue_classChar : ∀ {s g3 g4 g6 : List Char},
    findCue s = some (g3, g4, g6) →
    g3.all classChar = true ∧ g4.all classChar = true := by
  intro s
  induction s with
  | nil => intro g3 g4 g6 h; simp [findCue] at h
  | cons c rest ih =>
    intro g3 g4 g6 h
    unfold findCue at h
    split at h
    next r heq =>
      cases h
      exact matchAt_classChar heq
    next => exact ih h

theorem generate_timecodes_total {g3 g4 : List Char}
    (h3 : g3.all classChar = true) (h4 : g4.all classChar = true) :
    (generate_timecodes g3 g4).isSome = true := by
  have t3 := to_timecode_total_classChar h3
  have t4 := to_timecode_total_classChar h4
  unfold generate_timecodes
  split
  next heq => rw [heq] at t3; simp at t3
  · rfl
  next a heq =>
    split
    next heq2 => rw [heq2] at t4; simp at t4
    · rfl
    · rfl

theorem to_cue_total (s : List Char) : (to_cue s).isSome = true := by
  unfold to_cue
  split
  · rfl
  next g3 g4 g6 heq0 =>
    obtain ⟨hc3, hc4⟩ := findCue_classChar heq0
    have hg := generate_timecodes_total hc3 hc4
    split
    next heq => rw [heq] at hg; simp at hg
    · rfl
    · rfl

theorem matchTimecode_hour {hd rest : List Char} {M S : Nat} {Ts : List Char}
    (hall : allDig hd = true) (h2 : 2 ≤ hd.length) (h4 : hd.length ≤ 4)
    (hms : matchMMSSmmm rest = some (M, S, Ts)) :
    matchTimecode (hd ++ ':' :: rest) = some (some hd, M, S, Ts) := by
  have hr9 : rest.length = 9 := (matchMMSSmmm_inv hms).1
  obtain ⟨r0, rtail, rfl⟩ : ∃ r0 rtail, rest = r0 :: rtail := by
    cases rest with
    | nil => simp at hr9
    | cons r0 rtail => exact ⟨r0, rtail, rfl⟩
  have hlen : hd.length = 2 ∨ hd.length = 3 ∨ hd.length = 4 := by omega
  rcases hlen with hl | hl | hl
  · obtain ⟨a, b, rfl⟩ := List.length_eq_two.mp hl
    simp only [allDig, List.all_cons, List.all_nil, Bool.and_true, Bool.and_eq_true] at hall
    obtain ⟨ha, hb⟩ := hall
    simp [matchTimecode, tryHour, nd_colon, hms, dig_nd ha, dig_nd hb]
  · obtain ⟨a, b, c, rfl⟩ := List.length_eq_three.mp hl
    simp only [allDig, List.all_cons, List.all_nil, Bool.and_true, Bool.and_eq_true] at hall
    obtain ⟨ha, hb, hc⟩ := hall
    simp [matchTimecode, tryHour, nd_colon, hms, dig_nd ha, dig_nd hb, dig_nd hc]
  · obtain ⟨a, hd, rfl⟩ : ∃ a tl, hd = a :: tl := by
      cases hd with
      | nil => simp at hl
      | cons a tl => exact ⟨a, tl, rfl⟩
    obtain ⟨b, c, d, rfl⟩ := List.length_eq_three.mp (by simpa using hl)
    simp only [allDig, List.all_cons, List.all_nil, Bool.and_true, Bool.and_eq_true] at hall
    obtain ⟨ha, hb, hc, hdd⟩ := hall
    simp [matchTimecode, tryHour, nd_colon, hms, dig_nd ha, dig_nd hb, dig_nd hc, dig_nd hdd]

theorem matchTimecode_noHour {m1 m2 s1 s2 p t1 t2 t3 : Char} {M S : Nat} {Ts : List Char}
    (hm1 : dig m1 = true) (hm2 : dig m2 = true)
    (hms : matchMMSSmmm [m1, m2, ':', s1, s2, p, t1, t2, t3] = some (M, S, Ts)) :
    matchTimecode [m1, m2, ':', s1, s2, p, t1, t2, t3] = some (none, M, S, Ts) := by
  simp [matchTimecode, tryHour, nd_colon, dig_nd hm1, dig_nd hm2, hms,
    show matchMMSSmmm [s1, s2, p, t1, t2, t3] = none from rfl]

theorem two_digit_le {a b : Char} (ha : lowDig a = true) (hb : dig b = true) :
    10 * digitVal a + digitVal b ≤ 59 := by
  have h1 := digitVal_le_five ha; have h2 := digitVal_le hb; omega

/-- Claim C2: every valid timestamp string `H?MM:SS.mmm` (hour field of 2–4
digits, optional and defaulting to 0; `MM`,`SS` in `[00,59]`; `mmm` any three
digits) is accepted by `to_timecode`, and `to_seconds` on the result is
`H*3600 + MM*60 + SS`, the milliseconds being discarded by truncation. -/
theorem claimC2 (hrs : List Char) (m1 m2 s1 s2 t1 t2 t3 : Char)
    (hhrs : allDig hrs = true) (hl2 : 2 ≤ hrs.length) (hl4 : hrs.length ≤ 4)
    (hm1 : lowDig m1 = true) (hm2 : dig m2 = true)
    (hs1 : lowDig s1 = true) (hs2 : dig s2 = true)
    (ht1 : dig t1 = true) (ht2 : dig t2 = true) (ht3 : dig t3 = true) :
    (to_timecode (hrs ++ ':' :: [m1, m2, ':', s1, s2, '.', t1, t2, t3]) =
      some (Except.ok ⟨hrs ++ ':' :: [m1, m2, ':', s1, s2, '.', t1, t2, t3],
        natOfDigits hrs, 10 * digitVal m1 + digitVal m2, 10 * digitVal s1 + digitVal s2,
        100 * digitVal t1 + 10 * digitVal t2 + digitVal t3⟩) ∧
     TimeCode.to_seconds ⟨hrs ++ ':' :: [m1, m2, ':', s1, s2, '.', t1, t2, t3],
        natOfDigits hrs, 10 * digitVal m1 + digitVal m2, 10 * digitVal s1 + digitVal s2,
        100 * digitVal t1 + 10 * digitVal t2 + digitVal t3⟩ =
       natOfDigits hrs * 3600 + (10 * digitVal m1 + digitVal m2) * 60
         + (10 * digitVal s1 + digitVal s2)) ∧
    (to_timecode [m1, m2, ':', s1, s2, '.', t1, t2, t3] =
      some (Except.ok ⟨[m1, m2, ':', s1, s2, '.', t1, t2, t3], 0,
        10 * digitVal m1 + digitVal m2, 10 * digitVal s1 + digitVal s2,
        100 * digitVal t1 + 10 * digitVal t2 + digitVal t3⟩) ∧
     TimeCode.to_seconds ⟨[m1, m2, ':', s1, s2, '.', t1, t2, t3], 0,
        10 * digitVal m1 + digitVal m2, 10 * digitVal s1 + digitVal s2,
        100 * digitVal t1 + 10 * digitVal t2 + digitVal t3⟩ =
       0 * 3600 + (10 * digitVal m1 + digitVal m2) * 60
         + (10 * digitVal s1 + digitVal s2)) := by
  have hms := @matchMMSSmmm_eval m1 m2 s1 s2 '.' t1 t2 t3 hm1 hm2 hs1 hs2 (by decide) ht1 ht2 ht3
  have hH : natOfDigits hrs < 10000 :=
    calc natOfDigits hrs < 10 ^ hrs.length := natOfDigits_lt hhrs
      _ ≤ 10 ^ 4 := Nat.pow_le_pow_right (by omega) hl4
      _ = 10000 := by norm_num
  have hM := two_digit_le hm1 hm2
  have hS := two_digit_le hs1 hs2
  have hT : 100 * digitVal t1 + 10 * digitVal t2 + digitVal t3 ≤ 999 := by
    have h1 := digitVal_le ht1; have h2 := digitVal_le ht2; have h3 := digitVal_le ht3
    omega
  have hhne : hrs ≠ [] := by intro he; rw [he] at hl2; simp at hl2
  have hhlt : natOfDigits hrs < U32 := by
    calc natOfDigits hrs < 10000 := hH
      _ < U32 := by norm_num [U32]
  have hTdig : allDig [t1, t2, t3] = true := by simp [allDig, ht1, ht2, ht3]
  have hTlt : natOfDigits [t1, t2, t3] < U32 := by
    rw [natOfDigits_three]; calc 100 * digitVal t1 + 10 * digitVal t2 + digitVal t3 ≤ 999 := hT
      _ < U32 := by norm_num [U32]
  refine ⟨⟨?_, ?_⟩, ?_, ?_⟩
  · simp only [to_timecode, matchTimecode_hour hhrs hl2 hl4 hms,
      u32parse_digits hhrs hhne hhlt, u32parse_digits hTdig (by simp) hTlt, natOfDigits_three]
  · simp only [TimeCode.to_seconds, U32]
    omega
  · simp only [to_timecode, matchTimecode_noHour (lowDig_dig hm1) hm2 hms,
      u32parse_digits hTdig (by simp) hTlt, natOfDigits_three]
  · simp only [TimeCode.to_seconds, U32]
    omega

/-- Claim C2 witness: the valid timestamp `01:02:03.004` parses to hours 1,
minutes 2, seconds 3, milliseconds 4, with `to_seconds` 3723, and `02:03.004`
parses the same with hours 0 and `to_seconds` 123. -/
theorem claimC2_witness :
    (to_timecode (chars ("01:02:03.004")) =
      some (Except.ok ⟨chars ("01:02:03.004"), 1, 2, 3, 4⟩) ∧
     TimeCode.to_seconds ⟨chars ("01:02:03.004"), 1, 2, 3, 4⟩ = 3723) ∧
    (to_timecode (chars ("02:03.004")) =
      some (Except.ok ⟨chars ("02:03.004"), 0, 2, 3, 4⟩) ∧
     TimeCode.to_seconds ⟨chars ("02:03.004"), 0, 2, 3, 4⟩ = 123) :=
  claimC2 ['0', '1'] '0' '2' '0' '3' '0' '0' '4' (by decide) (by decide) (by decide)
    (by decide) (by decide) (by decide) (by decide) (by decide) (by decide) (by decide)

/-- Claim C3 counterexample: `01:02:03.٤٥٦` is outside the spec's timestamp
grammar (its millisecond field holds Arabic-Indic digits, not `[0-9]` digits,
so `specValidTimecode` rejects it), yet `to_timecode` does not return the
`invalid timecode` error on it: the Unicode-aware regex matches and the
`parse::<u32>().unwrap()` on the millisecond capture panics (`none`). -/
theorem claimC3_counterexample :
    specValidTimecode (chars ("01:02:03.٤٥٦")) = false ∧
    to_timecode (chars ("01:02:03.٤٥٦")) = none ∧
    to_timecode (chars ("01:02:03.٤٥٦")) ≠ some (Except.error invalidTC) := by
  refine ⟨rfl, rfl, ?_⟩
  intro h
  rw [show to_timecode (chars ("01:02:03.٤٥٦")) = none from rfl] at h
  exact Option.noConfusion h

/-- Claim C3 (amended): every input string outside the timestamp grammar with
`digit` read as the regex crate's Unicode `\d` (optional 2–4 Unicode-digit
hour prefix, two-digit ASCII minutes and seconds in `[00,59]`, and exactly
three Unicode millisecond digits behind `.` or `,`) is rejected by
`to_timecode` with the `invalid timecode` error and no partial value; inputs
inside that grammar whose hour or millisecond field holds a non-ASCII digit
panic instead of returning the error. -/
theorem claimC3_amended (s : List Char) (h : specValidTimecodeU s = false) :
    to_timecode s = some (Except.error invalidTC) := by
  unfold to_timecode
  split
  · rfl
  next hopt M S Ts heq =>
    exact absurd (matchTimecode_inv heq).1 (by simp [h])

/-- Claim C3 witness: a timestamp without milliseconds, one with seconds 60,
and one with a non-digit in the hour field are all rejected. -/
theorem claimC3_witness :
    to_timecode (chars ("01:02:03")) = some (Except.error invalidTC) ∧
    to_timecode (chars ("01:02:60.004")) = some (Except.error invalidTC) ∧
    to_timecode (chars ("0a:02:03.001")) = some (Except.error invalidTC) :=
  ⟨claimC3_amended _ (by decide), claimC3_amended _ (by decide),
   claimC3_amended _ (by decide)⟩

/-- Claim C4 counterexample: an hour field of one digit (`1:02:03.004`) and one
of five digits (`12345:02:03.004`) are both rejected by `to_timecode`, so the
claim that an hour field of any number of digits is accepted is false. -/
theorem claimC4_counterexample :
    to_timecode (chars ("1:02:03.004")) = some (Except.error invalidTC) ∧
    to_timecode (chars ("12345:02:03.004")) = some (Except.error invalidTC) :=
  ⟨rfl, rfl⟩

/-- Claim C4 (amended): the hours field may exceed 24, but its lexical width is
limited to 2–4 digits: every hour field of 2–4 digits prefixed to the
well-formed remainder `:01:02.003` is accepted with that hours value, and in
particular `25:00:00.000` parses with hours 25. -/
theorem claimC4_amended :
    (∀ hrs : List Char, allDig hrs = true → 2 ≤ hrs.length → hrs.length ≤ 4 →
      to_timecode (hrs ++ chars (":01:02.003")) =
        some (Except.ok ⟨hrs ++ chars (":01:02.003"), natOfDigits hrs, 1, 2, 3⟩)) ∧
    to_timecode (chars ("25:00:00.000")) =
      some (Except.ok ⟨chars ("25:00:00.000"), 25, 0, 0, 0⟩) := by
  constructor
  · intro hrs hall h2 h4
    have hms : matchMMSSmmm (chars ("01:02.003")) = some (1, 2, chars ("003")) := rfl
    have hne : hrs ≠ [] := by intro he; rw [he] at h2; simp at h2
    have hlt : natOfDigits hrs < U32 := by
      calc natOfDigits hrs < 10 ^ hrs.length := natOfDigits_lt hall
        _ ≤ 10 ^ 4 := Nat.pow_le_pow_right (by omega) h4
        _ < U32 := by norm_num [U32]
    rw [show hrs ++ chars (":01:02.003") = hrs ++ ':' :: chars ("01:02.003") from rfl]
    simp only [to_timecode, matchTimecode_hour hall h2 h4 hms,
      u32parse_digits hall hne hlt,
      show u32parse (chars ("003")) = some 3 from rfl]
  · rfl

/-- Claim C4 witness: the four-digit hour field `9999` is accepted with hours
value 9999. -/
theorem claimC4_witness :
    to_timecode (chars ("9999:01:02.003")) =
      some (Except.ok ⟨chars ("9999:01:02.003"), 9999, 1, 2, 3⟩) :=
  claimC4_amended.1 ['9', '9', '9', '9'] (by decide) (by decide) (by decide)

/-- Claim C8 (code bug): the claim — and the source's own comment, `it should
be safe to unwrap() these values` — say the entry points never panic, but the
Unicode-aware `\d` admits non-ASCII decimal digits in the hour and millisecond
captures, on which `parse::<u32>().unwrap()` panics: a timestamp with
Arabic-Indic millisecond digits and one with an Arabic-Indic hour field both
drive `to_timecode` into the panic outcome (`none`) instead of returning a
value or error. -/
theorem claimC8_panics :
    to_timecode (chars ("01:02:03.٤٥٦")) = none ∧
    to_timecode (chars ("٢٣:01:02.003")) = none :=
  ⟨rfl, rfl⟩

/-- Claim C9: on success, the `string` field of the returned `TimeCode` is the
exact input string, with no normalization. -/
theorem claimC9 (s : List Char) (tc : TimeCode)
    (h : to_timecode s = some (Except.ok tc)) : tc.string = s := by
  unfold to_timecode at h
  split at h
  · exact absurd h (by simp)
  next hopt M S Ts heq =>
    split at h
    · exact absurd h (by simp)
    next hh hpeq =>
      split at h
      · exact absurd h (by simp)
      next ttt hteq =>
        cases h; rfl

/-- Claim C9 witness: parsing `00:01:14.815` retains the input verbatim in the
`string` field. -/
theorem claimC9_witness :
    (⟨chars ("00:01:14.815"), 0, 1, 14, 815⟩ : TimeCode).string = chars ("00:01:14.815") :=
  claimC9 (chars ("00:01:14.815")) ⟨chars ("00:01:14.815"), 0, 1, 14, 815⟩ rfl

/-- Claim C1 (amended): if the cue regex finds no match anywhere in the block,
or either timestamp substring captured by the selected (leftmost-first) match
fails TimeCode parsing, `to_cue` fails with the `not a valid cue` error and
returns no partial Cue.  (When several lines could serve as the timing line the
parser does not fail: it commits to the leftmost-first match.) -/
theorem claimC1_amended (s : List Char) :
    (findCue s = none → to_cue s = some (Except.error notValidCue)) ∧
    (∀ g3 g4 g6, findCue s = some (g3, g4, g6) →
      to_timecode g3 = some (Except.error invalidTC) ∨
        to_timecode g4 = some (Except.error invalidTC) →
      to_cue s = some (Except.error notValidCue)) := by
  constructor
  · intro h; simp only [to_cue, h]
  · intro g3 g4 g6 hf herr
    have hgen : generate_timecodes g3 g4 = some none := by
      unfold generate_timecodes
      rcases herr with h3 | h4
      · rw [h3]
      · obtain ⟨hc3, _⟩ := findCue_classChar hf
        have ht3 := to_timecode_total_classChar hc3
        rcases hh3 : to_timecode g3 with _ | v
        · rw [hh3] at ht3; simp at ht3
        · rcases v with e | a
          · rfl
          · rw [h4]
    simp only [to_cue, hf, hgen]

/-- Claim C1 counterexample: a block containing two lines that both match the
timing-line grammar does not fail — the regex treats the first one as the
optional identifier line and parses the cue from the second one. -/
theorem claimC1_counterexample :
    to_cue (chars ("00:00:01.000 --> 00:00:02.000") ++ '\n'
        :: chars ("00:00:03.000 --> 00:00:04.000") ++ '\n' :: chars ("hello")) =
      some (Except.ok ⟨⟨chars ("00:00:03.000"), 0, 0, 3, 0⟩,
        ⟨chars ("00:00:04.000"), 0, 0, 4, 0⟩, chars ("hello")⟩) := rfl

/-- Claim C1 witness: a block with no timing line fails, and a block whose
timing-shaped line carries substrings that are not valid timecodes fails. -/
theorem claimC1_witness :
    to_cue (chars ("hello") ++ '\n' :: chars ("world")) = some (Except.error notValidCue) ∧
    to_cue (chars ("0000000000 --> 0000000000") ++ '\n' :: chars ("hi")) =
      some (Except.error notValidCue) :=
  ⟨(claimC1_amended _).1 rfl,
   (claimC1_amended _).2 (chars ("0000000000")) (chars ("0000000000"))
     ('\n' :: chars ("hi")) rfl (Or.inl rfl)⟩

/-- Claim C5 counterexample: for the accepted block whose post-timing content
is `hello\n`, the cue text is `hello`, while sanitizing and joining the raw
lines following the timing line (`hello` and the empty final line) would give
`hello\n` — the trailing empty line is not retained. -/
theorem claimC5_counterexample :
    to_cue (chars ("00:01:14.815 --> 00:01:18.114") ++ '\n' :: chars ("hello") ++ ['\n']) =
      some (Except.ok ⟨⟨chars ("00:01:14.815"), 0, 1, 14, 815⟩,
        ⟨chars ("00:01:18.114"), 0, 1, 18, 114⟩, chars ("hello")⟩) ∧
    chars ("hello") ≠ joinNL ((splitNL (chars ("hello") ++ ['\n'])).map sanitize_text) :=
  ⟨rfl, by decide⟩

/-- Claim C5 (amended): the text of every accepted cue is obtained from the
captured post-timing block by whitespace-trimming it as a whole, splitting on
newlines, passing each line individually through the sanitizer, and joining in
original order (so surrounding whitespace-only content is not retained). -/
theorem claimC5_amended (s : List Char) (c : Cue) (h : to_cue s = some (Except.ok c)) :
    ∃ g3 g4 g6, findCue s = some (g3, g4, g6) ∧
      c.text = joinNL ((splitNL (trimWS g6)).map sanitize_text) := by
  unfold to_cue at h
  split at h
  · exact absurd h (by simp)
  next g3 g4 g6 heq =>
    refine ⟨g3, g4, g6, heq, ?_⟩
    split at h
    · exact absurd h (by simp)
    · exact absurd h (by simp)
    next a b hgen =>
      cases h; rfl

/-- Claim C5 witness: the block `00:01:14.815 --> 00:01:18.114\nabc` is
accepted and its text is the sanitized trimmed block. -/
theorem claimC5_witness :
    ∃ g3 g4 g6,
      findCue (chars ("00:01:14.815 --> 00:01:18.114") ++ '\n' :: chars ("abc")) =
        some (g3, g4, g6) ∧
      (⟨⟨chars ("00:01:14.815"), 0, 1, 14, 815⟩, ⟨chars ("00:01:18.114"), 0, 1, 18, 114⟩,
        chars ("abc")⟩ : Cue).text = joinNL ((splitNL (trimWS g6)).map sanitize_text) :=
  claimC5_amended _ _ rfl

theorem takeWhile_eq_take_runLen (p : Char → Bool) (l : List Char) :
    l.takeWhile p = l.take (runLen p l) := by
  induction l with
  | nil => rfl
  | cons c r ih =>
    by_cases hp : p c
    · simp [List.takeWhile_cons, runLen, hp, List.take_succ_cons, ih]
    · simp [List.takeWhile_cons, runLen, hp]

theorem dropWhile_eq_drop_runLen (p : Char → Bool) (l : List Char) :
    l.dropWhile p = l.drop (runLen p l) := by
  induction l with
  | nil => rfl
  | cons c r ih =>
    by_cases hp : p c
    · simp [List.dropWhile_cons, runLen, hp, ih]
    · simp [List.dropWhile_cons, runLen, hp]

theorem tagBody_span (r : List Char) :
    tagBody r = (match r.span tagChar with
      | (tok, rest) =>
        match rest with
        | '>' :: after => if tok = [] then none else some after
        | _ => none) := by
  rw [List.span_eq_take_drop, takeWhile_eq_take_runLen, dropWhile_eq_drop_runLen]
  simp only [tagBody]
  rcases hd : r.drop (runLen tagChar r) with _ | ⟨x, xs⟩
  · simp
  · have hxs : r.drop (runLen tagChar r + 1) = xs := by
      rw [← List.tail_drop, hd, List.tail_cons]
    have hrne : r ≠ [] := by
      intro he; rw [he] at hd; simp at hd
    by_cases hx : x = '>'
    · subst hx
      by_cases hn : 1 ≤ runLen tagChar r
      · have htne : ¬ r.take (runLen tagChar r) = [] := by
          rw [List.take_eq_nil_iff]
          push_neg
          exact ⟨by omega, hrne⟩
        rw [if_pos ⟨hn, rfl⟩, hxs]
        exact (if_neg htne).symm
      · have hn0 : runLen tagChar r = 0 := by omega
        rw [if_neg (fun hcon => hn hcon.1)]
        rw [hn0]
        simp
    · rw [if_neg (fun hcon => hx (by simpa using hcon.2))]
      split
      next heq =>
        rw [List.cons.injEq] at heq
        exact absurd heq.1 hx
      next => rfl

theorem specTagHere_eq (slash : Bool) (r : List Char) :
    specTagHere slash r = tagAfterLT slash r := by
  unfold specTagHere tagAfterLT
  cases slash
  · show (match r.span tagChar with
      | (tok, rest) =>
        match rest with
        | '>' :: after => if tok = [] then none else some after
        | _ => none) = tagBody r
    rw [tagBody_span]
  · cases r with
    | nil => rfl
    | cons c r2 =>
      by_cases hc : c = '/'
      · subst hc
        show (match r2.span tagChar with
          | (tok, rest) =>
            match rest with
            | '>' :: after => if tok = [] then none else some after
            | _ => none) = tagBody r2
        rw [tagBody_span]
      · have hcb : (c == '/') = false := by simp [hc]
        show (match (match c :: r2 with | '/' :: r3 => some r3 | _ => none) with
          | none => (none : Option (List Char))
          | some r3 =>
            match r3.span tagChar with
            | (tok, rest) =>
              match rest with
              | '>' :: after => if tok = [] then none else some after
              | _ => none) = if c == '/' then tagBody r2 else none
        rw [hcb]
        have hm : (match c :: r2 with | '/' :: r3 => some r3 | _ => none)
            = (none : Option (List Char)) := by
          split
          next heq => exact absurd heq (by simp [hc])
          next => rfl
        rw [hm]
        rfl

theorem specStripTags_eq (slash : Bool) :
    ∀ fuel l, specStripTags slash fuel l = removeTagsAux slash fuel l := by
  intro fuel
  induction fuel with
  | zero => intro l; rfl
  | succ f ih =>
    intro l
    cases l with
    | nil => rfl
    | cons c r =>
      simp only [specStripTags, removeTagsAux, specTagHere_eq]
      by_cases hc : c = '<'
      · rw [if_pos hc, if_pos (show (c == '<') = true by simp [hc])]
        rcases tagAfterLT slash r with _ | after
        · simp [ih]
        · simp [ih]
      · rw [if_neg hc, if_neg (show ¬ (c == '<') = true by simp [hc])]
        simp [ih]

theorem specStripDash_eq (l : List Char) : specStripDash l = stripDash l := by
  unfold specStripDash
  rcases l with _ | ⟨c, _ | ⟨d, r⟩⟩
  · rfl
  · rw [if_neg (by simp [chars])]
    unfold stripDash
    split
    next heq => exact absurd heq (by simp)
    next => rfl
  · by_cases h1 : c = '-'
    · by_cases h2 : d = ' '
      · subst h1; subst h2
        rw [if_pos (by rfl)]
        rfl
      · rw [if_neg (by simp [chars, h2])]
        unfold stripDash
        split
        next heq => exact absurd heq (by simp [h2])
        next => rfl
    · rw [if_neg (by simp [chars, h1])]
      unfold stripDash
      split
      next heq => exact absurd heq (by simp [h1])
      next => rfl

theorem leadsWith_iff (pat : List Char) : ∀ l : List Char,
    leadsWith pat l = true ↔ l.take pat.length = pat := by
  induction pat with
  | nil => intro l; simp [leadsWith]
  | cons p ps ih =>
    intro l
    cases l with
    | nil => simp [leadsWith]
    | cons c r =>
      simp only [leadsWith, List.length_cons, List.take_succ_cons, Bool.and_eq_true,
        beq_iff_eq, List.cons.injEq, ih r]
      constructor
      · rintro ⟨rfl, h⟩; exact ⟨rfl, h⟩
      · rintro ⟨rfl, h⟩; exact ⟨rfl, h⟩

theorem specReplace_eq (pat : List Char) :
    ∀ fuel l, specReplace pat fuel l = replaceAux pat fuel l := by
  intro fuel
  induction fuel with
  | zero => intro l; rfl
  | succ f ih =>
    intro l
    cases l with
    | nil => rfl
    | cons c r =>
      simp only [specReplace, replaceAux]
      by_cases hcond : pat ≠ [] ∧ (c :: r).take pat.length = pat
      · rw [if_pos hcond, if_pos ⟨(leadsWith_iff pat (c :: r)).mpr hcond.2,
          List.length_pos.mpr hcond.1⟩, ih]
      · rw [if_neg hcond, if_neg (fun hcon => hcond
          ⟨List.ne_nil_of_length_pos hcon.2, (leadsWith_iff pat (c :: r)).mp hcon.1⟩)]
        rw [ih]

/-- Claim C6 counterexample: on the line `&g&amp;t;` the sanitizer's six
sequential entity passes first delete `&amp;`, which exposes a new `&gt;`
occurrence that the later `&gt;` pass also deletes, yielding the empty line;
a single pass deleting every occurrence of the six entities — rule (4) of the
claim as frozen, modelled by `specSanitizeClaim` — deletes only the one
`&amp;` occurrence present in the line and yields `&gt;`. -/
theorem claimC6_counterexample :
    sanitize_text (chars ("&g&amp;t;")) = ([] : List Char) ∧
    specSanitizeClaim (chars ("&g&amp;t;")) = chars ("&gt;") ∧
    sanitize_text (chars ("&g&amp;t;")) ≠ specSanitizeClaim (chars ("&g&amp;t;")) :=
  ⟨rfl, rfl, by decide⟩

/-- Claim C6 (amended): for every input line, the sanitizer returns the result
of applying, in order: (1) removal of all opening tags over the token charset,
(2) removal of all closing tags, (3) at most one leading `"- "` strip, and
(4) for each of the six entities in the order `&amp;`, `&lt;`, `&gt;`,
`&lrm;`, `&rlm;`, `&nbsp;`, a separate whole-line pass deleting every
occurrence of that entity (so a later entity exposed by an earlier deletion is
also deleted) — stated as equality with the independently written spec-side
pipeline `specSanitizeSeq`; and the spec's Japanese example sanitizes as
stated. -/
theorem claimC6_amended :
    (∀ l : List Char, sanitize_text l = specSanitizeSeq l) ∧
    sanitize_text (chars ("<c.japanese><c.bg_some>&lrm;（聖弥）フフッ</c.bg_some></c.japanese>")) =
      chars ("（聖弥）フフッ") := by
  constructor
  · intro l
    unfold sanitize_text specSanitizeSeq removeTags replaceStr
    simp only [esToPrune, List.foldl_cons, List.foldl_nil]
    rw [specStripTags_eq, specStripTags_eq, specStripDash_eq, specReplace_eq,
      specReplace_eq, specReplace_eq, specReplace_eq, specReplace_eq, specReplace_eq]
  · rfl

theorem dropWhile_head {p : Char → Bool} {l : List Char} {a : Char} {t : List Char}
    (h : l.dropWhile p = a :: t) : p a = false := by
  induction l with
  | nil => simp at h
  | cons c cs ih =>
    rw [List.dropWhile_cons] at h
    split at h
    · exact ih h
    next hc => cases h; simpa using hc

theorem dropWhile_getLast? {p : Char → Bool} {l : List Char}
    (h : l.dropWhile p ≠ []) : (l.dropWhile p).getLast? = l.getLast? := by
  induction l with
  | nil => simp at h
  | cons c cs ih =>
    rw [List.dropWhile_cons] at h ⊢
    split
    next hc =>
      rw [if_pos hc] at h
      have hcs : cs ≠ [] := by
        intro he; rw [he] at h; simp at h
      rw [ih h]
      obtain ⟨d, ds, rfl⟩ := List.exists_cons_of_ne_nil hcs
      rw [List.getLast?_cons_cons]
    · rfl

theorem trimWS_head {cs : List Char} {a : Char} {t : List Char}
    (h : trimWS cs = a :: t) : isWS a = false := by
  unfold trimWS at h
  have h1 : (((cs.dropWhile isWS).reverse.dropWhile isWS)).getLast? = some a := by
    rw [← List.head?_reverse, h]; rfl
  have hne : ((cs.dropWhile isWS).reverse.dropWhile isWS) ≠ [] := by
    intro he; rw [he] at h1; simp at h1
  rw [dropWhile_getLast? hne, List.getLast?_reverse] at h1
  rcases hh : (cs.dropWhile isWS) with _ | ⟨b, bs⟩
  · rw [hh] at h1; simp at h1
  · rw [hh] at h1
    simp only [List.head?_cons, Option.some.injEq] at h1
    subst h1
    exact dropWhile_head hh

theorem trimWS_last {cs : List Char} {a : Char}
    (h : (trimWS cs).getLast? = some a) : isWS a = false := by
  unfold trimWS at h
  rw [List.getLast?_reverse] at h
  rcases hh : ((cs.dropWhile isWS).reverse.dropWhile isWS) with _ | ⟨b, bs⟩
  · rw [hh] at h; simp at h
  · rw [hh] at h
    simp only [List.head?_cons, Option.some.injEq] at h
    subst h
    exact dropWhile_head hh

/-- Claim C10 (amended): the post-timing block is whitespace-trimmed as a
whole before being split into lines (removing leading and trailing whitespace,
including empty lines around the block), so the trimmed block fed to the
sanitizer never begins or ends with whitespace; the final text can still begin
or end with whitespace that sanitization exposes. -/
theorem claimC10_amended (s : List Char) (c : Cue) (h : to_cue s = some (Except.ok c)) :
    ∃ g3 g4 g6, findCue s = some (g3, g4, g6) ∧
      c.text = joinNL ((splitNL (trimWS g6)).map sanitize_text) ∧
      (∀ a t, trimWS g6 = a :: t → isWS a = false) ∧
      (∀ a, (trimWS g6).getLast? = some a → isWS a = false) := by
  unfold to_cue at h
  split at h
  · exact absurd h (by simp)
  next g3 g4 g6 heq =>
    refine ⟨g3, g4, g6, heq, ?_, fun a t ht => trimWS_head ht, fun a ht => trimWS_last ht⟩
    split at h
    · exact absurd h (by simp)
    · exact absurd h (by simp)
    next a b hgen =>
      cases h; rfl

/-- Claim C10 counterexample: the accepted block whose only text line is
`<b> hi` yields the text ` hi`, which begins with a whitespace character —
sanitization (tag removal) can expose leading whitespace after the trim. -/
theorem claimC10_counterexample :
    to_cue (chars ("00:01:14.815 --> 00:01:18.114") ++ '\n' :: chars ("<b> hi")) =
      some (Except.ok ⟨⟨chars ("00:01:14.815"), 0, 1, 14, 815⟩,
        ⟨chars ("00:01:18.114"), 0, 1, 18, 114⟩, chars (" hi")⟩) ∧
    isWS ' ' = true :=
  ⟨rfl, rfl⟩

/-- Claim C10 witness: the block `00:01:14.815 --> 00:01:18.114\nxyz` is
accepted, its text comes from the trimmed block, and the trimmed block starts
and ends with non-whitespace. -/
theorem claimC10_witness :
    ∃ g3 g4 g6,
      findCue (chars ("00:01:14.815 --> 00:01:18.114") ++ '\n' :: chars ("xyz")) =
        some (g3, g4, g6) ∧
      (⟨⟨chars ("00:01:14.815"), 0, 1, 14, 815⟩, ⟨chars ("00:01:18.114"), 0, 1, 18, 114⟩,
        chars ("xyz")⟩ : Cue).text = joinNL ((splitNL (trimWS g6)).map sanitize_text) ∧
      (∀ a t, trimWS g6 = a :: t → isWS a = false) ∧
      (∀ a, (trimWS g6).getLast? = some a → isWS a = false) :=
  claimC10_amended _ _ rfl

theorem firstNL_append {l1 : List Char} (l2 : List Char) (h : '\n' ∉ l1) :
    firstNL (l1 ++ '\n' :: l2) = some l1.length := by
  induction l1 with
  | nil => simp [firstNL]
  | cons c cs ih =>
    have hc : (c == '\n') = false := by
      simp only [beq_eq_false_iff_ne, ne_eq]
      intro he; exact h (he ▸ List.mem_cons_self c cs)
    have hcs : '\n' ∉ cs := fun hm => h (List.mem_cons_of_mem c hm)
    rw [List.cons_append]
    simp [firstNL, hc, ih hcs]

theorem runLen_append_stop {p : Char → Bool} {a : List Char} {c : Char} (r : List Char)
    (ha : a.all p = true) (hc : p c = false) : runLen p (a ++ c :: r) = a.length := by
  induction a with
  | nil => simp [runLen, hc]
  | cons x xs ih =>
    simp only [List.all_cons, Bool.and_eq_true] at ha
    simp [runLen, ha.1, ih ha.2]

theorem drop_append_succ {l1 l2 : List Char} {c : Char} :
    (l1 ++ c :: l2).drop (l1.length + 1) = l2 := by
  rw [show l1 ++ c :: l2 = (l1 ++ [c]) ++ l2 by simp,
    show l1.length + 1 = (l1 ++ [c]).length by simp]
  exact List.drop_left _ _

theorem matchTimingLine_eval {g3 g4 : List Char} (r : List Char)
    (h3 : g3.all classChar = true) (h3l : 9 ≤ g3.length)
    (h4 : g4.all classChar = true) (h4l : 9 ≤ g4.length) :
    matchTimingLine (g3 ++ ' ' :: '-' :: '-' :: '>' :: ' ' :: (g4 ++ ' ' :: r)) =
      some (g3, g4) := by
  have hsp : classChar ' ' = false := by decide
  have hrun3 : runLen classChar (g3 ++ ' ' :: ('-' :: '-' :: '>' :: ' ' :: (g4 ++ ' ' :: r)))
      = g3.length := runLen_append_stop _ h3 hsp
  have hrun4 : runLen classChar (g4 ++ ' ' :: r) = g4.length := runLen_append_stop _ h4 hsp
  simp only [matchTimingLine, hrun3, List.drop_left, List.take_left]
  rw [if_pos h3l]
  simp only [List.take, List.drop]
  rw [if_pos trivial, hrun4, List.drop_left, List.take_left]
  rw [if_pos h4l]
  exact if_pos (Or.inr rfl)

theorem matchTiming_eval {line tail g3 g4 : List Char}
    (hnl : '\n' ∉ line) (hm : matchTimingLine line = some (g3, g4)) :
    matchTiming (line ++ '\n' :: tail) = some (g3, g4, '\n' :: tail) := by
  unfold matchTiming
  rw [firstNL_append tail hnl]
  simp only [List.take_left, List.drop_left, hm]

theorem findCue_eq_matchAt {l : List Char} {r : List Char × List Char × List Char}
    (hne : l ≠ []) (h : matchAt l = some r) : findCue l = some r := by
  cases l with
  | nil => exact absurd rfl hne
  | cons c cs => simp [findCue, h]

/-- Claim C7: the optional trailing cue-settings fragment on the timing line
is discarded entirely: for every fragment (any characters not containing a
newline) placed after `00:00:13.916 --> 00:00:16.500 `, the block parses to
start `00:00:13.916`, end `00:00:16.500` and text `hello`, independent of the
fragment, which appears in neither timestamp nor the text. -/
theorem claimC7 (settings : List Char) (hnl : '\n' ∉ settings) :
    to_cue (chars ("00:00:13.916 --> 00:00:16.500 ") ++ settings ++ '\n' :: chars ("hello")) =
      some (Except.ok ⟨⟨chars ("00:00:13.916"), 0, 0, 13, 916⟩,
        ⟨chars ("00:00:16.500"), 0, 0, 16, 500⟩, chars ("hello")⟩) := by
  have hlinenl : '\n' ∉ chars ("00:00:13.916 --> 00:00:16.500 ") ++ settings := by
    intro hm
    rcases List.mem_append.mp hm with hm | hm
    · exact absurd hm (by decide)
    · exact hnl hm
  have hml0 : matchTimingLine (chars ("00:00:13.916") ++ ' ' :: '-' :: '-' :: '>' :: ' '
        :: (chars ("00:00:16.500") ++ ' ' :: settings)) =
      some (chars ("00:00:13.916"), chars ("00:00:16.500")) :=
    matchTimingLine_eval settings (by decide) (by decide) (by decide) (by decide)
  have hml : matchTimingLine (chars ("00:00:13.916 --> 00:00:16.500 ") ++ settings) =
      some (chars ("00:00:13.916"), chars ("00:00:16.500")) := hml0
  have hmt : matchTiming ((chars ("00:00:13.916 --> 00:00:16.500 ") ++ settings)
        ++ '\n' :: chars ("hello")) =
      some (chars ("00:00:13.916"), chars ("00:00:16.500"), '\n' :: chars ("hello")) :=
    matchTiming_eval hlinenl hml
  have hident : identThenTiming ((chars ("00:00:13.916 --> 00:00:16.500 ") ++ settings)
        ++ '\n' :: chars ("hello")) = none := by
    unfold identThenTiming
    rw [firstNL_append _ hlinenl]
    show (if 1 ≤ (chars ("00:00:13.916 --> 00:00:16.500 ") ++ settings).length then
        matchTiming (List.drop ((chars ("00:00:13.916 --> 00:00:16.500 ") ++ settings).length + 1)
          ((chars ("00:00:13.916 --> 00:00:16.500 ") ++ settings) ++ '\n' :: chars ("hello")))
      else none) = none
    have h30 : (chars ("00:00:13.916 --> 00:00:16.500 ")).length = 30 := rfl
    rw [if_pos (by simp [h30]; omega), drop_append_succ]
    rfl
  have hat : matchAt ((chars ("00:00:13.916 --> 00:00:16.500 ") ++ settings)
        ++ '\n' :: chars ("hello")) =
      some (chars ("00:00:13.916"), chars ("00:00:16.500"), '\n' :: chars ("hello")) := by
    unfold matchAt
    rw [hident, hmt]
  have hfind : findCue ((chars ("00:00:13.916 --> 00:00:16.500 ") ++ settings)
        ++ '\n' :: chars ("hello")) =
      some (chars ("00:00:13.916"), chars ("00:00:16.500"), '\n' :: chars ("hello")) :=
    findCue_eq_matchAt (by simp [chars]) hat
  have hassoc : chars ("00:00:13.916 --> 00:00:16.500 ") ++ settings ++ '\n' :: chars ("hello")
      = (chars ("00:00:13.916 --> 00:00:16.500 ") ++ settings) ++ '\n' :: chars ("hello") := by
    rw [List.append_assoc]
  rw [hassoc]
  simp only [to_cue, hfind]
  rfl

/-- Claim C7 witness: the spec's concrete cue-settings example
`position:50.00%,middle align:middle` is discarded. -/
theorem claimC7_witness :
    to_cue (chars ("00:00:13.916 --> 00:00:16.500 ")
        ++ chars ("position:50.00%,middle align:middle") ++ '\n' :: chars ("hello")) =
      some (Except.ok ⟨⟨chars ("00:00:13.916"), 0, 0, 13, 916⟩,
        ⟨chars ("00:00:16.500"), 0, 0, 16, 500⟩, chars ("hello")⟩) :=
  claimC7 (chars ("position:50.00%,middle align:middle")) (by decide)
